import Mathlib

/-!
Verification development for the agenix Agent Execution Core.

Shallow embedding of:
- the message / content-block / tool-call data model (agenix/core/messages.py),
- the OpenAI stream normalizer tool-call accumulation (agenix/core/llm.py,
  OpenAIProvider.stream),
- the message accumulator (Agent._stream_llm_response in agenix/core/agent.py),
- the turn loop (Agent._run_loop, Agent._should_continue_loop,
  Agent._execute_tool in agenix/core/agent.py),
- the extension event dispatch (ExtensionRunner.emit in
  agenix/extensions/runner.py).

Python dictionaries are modelled as insertion-ordered association lists,
machine values for tool arguments as the PyVal type, and the external
json.loads routine as an arbitrary parameter of type String to Option PyVal
(a failed parse is Option.none, mirroring the caught JSONDecodeError).
-/

namespace Agenix

/-- Python-style value domain for tool-call arguments (the result of
json.loads can be null, a bool, a number, a string, a list or an object). -/
inductive PyVal where
  | pynone
  | pybool (b : Bool)
  | pyint (n : Int)
  | pystr (s : String)
  | pylist (xs : List PyVal)
  | pydict (kvs : List (String × PyVal))

/-- Python truthiness for PyVal, as used by the check
"if not tool_call.arguments" in Agent._run_loop. -/
def pyFalsy : PyVal → Bool
  | .pynone => true
  | .pybool b => !b
  | .pyint n => n == 0
  | .pystr s => s == ""
  | .pylist xs => xs.isEmpty
  | .pydict kvs => kvs.isEmpty

/-- The isinstance(arguments, dict) test in Agent._run_loop. -/
def pyIsDict : PyVal → Bool
  | .pydict _ => true
  | _ => false

/-- The whitespace characters stripped by the Python str.strip() method. -/
def isPySpace (c : Char) : Bool :=
  c = ' ' ∨ c = '\t' ∨ c = '\n' ∨ c = '\r' ∨ c = '\x0b' ∨ c = '\x0c'

/-- The Python str.strip() method: drop leading and trailing whitespace. -/
def pyStrip (s : String) : String :=
  ⟨((s.data.dropWhile isPySpace).reverse.dropWhile isPySpace).reverse⟩

/-- Comma-separated concatenation used by the Python repr of containers. -/
def joinComma : List String → String
  | [] => ""
  | [s] => s
  | s :: rest => s ++ ", " ++ joinComma rest

mutual

/-- Python repr/str of a PyVal, as interpolated by the f-string building the
invalid-arguments error content in Agent._run_loop. -/
def pyRepr : PyVal → String
  | .pynone => "None"
  | .pybool b => if b then "True" else "False"
  | .pyint n => toString n
  | .pystr s => "\x27" ++ s ++ "\x27"
  | .pylist xs => "[" ++ pyReprList xs ++ "]"
  | .pydict kvs => "\x7b" ++ pyReprDict kvs ++ "\x7d"

/-- Helper for pyRepr on list elements. -/
def pyReprList : List PyVal → String
  | [] => ""
  | [x] => pyRepr x
  | x :: xs => pyRepr x ++ ", " ++ pyReprList xs

/-- Helper for pyRepr on dict entries. -/
def pyReprDict : List (String × PyVal) → String
  | [] => ""
  | [kv] => "\x27" ++ kv.1 ++ "\x27: " ++ pyRepr kv.2
  | kv :: kvs => "\x27" ++ kv.1 ++ "\x27: " ++ pyRepr kv.2 ++ ", " ++ pyReprDict kvs

end

/-- Content blocks of messages (TextContent, ImageContent, ReasoningContent
in agenix/core/messages.py). The image source dict is kept abstract as an
association list of strings. -/
inductive ContentBlock where
  | text (text : String)
  | image (source : List (String × String))
  | reasoning (text : String) (reasoningId : String)

/-- ToolCall from agenix/core/messages.py: id, name and arguments; after
normalization arguments is whatever json.loads produced (or an empty dict). -/
structure ToolCall where
  id : String
  name : String
  arguments : PyVal

/-- Usage from agenix/core/messages.py (only the token counters matter to the
embedded claims; the stream path always leaves usage as None). -/
structure Usage where
  inputTokens : Nat
  outputTokens : Nat

/-- AssistantMessage from agenix/core/messages.py, restricted to the shape
the streaming path constructs: the content is always a list of blocks. -/
structure AssistantMessage where
  content : List ContentBlock
  toolCalls : List ToolCall
  model : String
  usage : Option Usage
  stopReason : Option String

/-- ToolResultMessage from agenix/core/messages.py. The content payload is
kept as a string (the error branches all build strings; a structured success
payload is opaque to every claim treated here). -/
structure ToolResultMessage where
  toolCallId : String
  name : String
  content : String
  isError : Bool

/-- The Message union from agenix/core/messages.py, restricted to the three
variants the turn loop appends. -/
inductive Message where
  | user (content : String)
  | assistant (m : AssistantMessage)
  | toolResult (m : ToolResultMessage)

/-- Canonical stream events (StreamEvent in agenix/core/llm.py) as consumed
by Agent._stream_llm_response. Optional string fields that Python tests for
truthiness are embedded as plain strings where the empty string is falsy
(a None reasoning_block_id behaves exactly like an empty one). -/
inductive StreamEvent where
  | textDelta (delta : String)
  | reasoningDelta (delta : String) (reasoningBlockId : String)
  | toolCall (tc : Option ToolCall)
  | finish (finishReason : String)

/-! ## Generic insertion-ordered association lists
Python dicts preserve insertion order; both accumulators below rely on it. -/

/-- Lookup in an insertion-ordered association list. -/
def lookupA {κ α : Type} [DecidableEq κ] (k : κ) : List (κ × α) → Option α
  | [] => Option.none
  | (j, a) :: rest => if j = k then some a else lookupA k rest

/-- Update the value stored at an existing key, keeping order. -/
def updateA {κ α : Type} [DecidableEq κ] (k : κ) (f : α → α) :
    List (κ × α) → List (κ × α)
  | [] => []
  | (j, a) :: rest => if j = k then (j, f a) :: rest else (j, a) :: updateA k f rest

/-- The keys of an association list, in insertion order. -/
def keysA {κ α : Type} (l : List (κ × α)) : List κ := l.map Prod.fst

theorem lookupA_updateA {κ α : Type} [DecidableEq κ] (k j : κ) (f : α → α) :
    ∀ l : List (κ × α), lookupA k (updateA j f l) =
      if j = k then (lookupA k l).map f else lookupA k l := by
  intro l
  induction l with
  | nil => simp [lookupA, updateA]
  | cons p rest ih =>
    obtain ⟨i, a⟩ := p
    by_cases hij : i = j
    · subst hij
      by_cases hik : i = k
      · subst hik
        simp [lookupA, updateA]
      · simp [lookupA, updateA, hik, ih]
    · by_cases hik : i = k
      · subst hik
        have hjk : ¬ j = i := fun h => hij h.symm
        simp [lookupA, updateA, hij, hjk]
      · simp [lookupA, updateA, hik, hij, ih]

theorem keysA_updateA {κ α : Type} [DecidableEq κ] (j : κ) (f : α → α) :
    ∀ l : List (κ × α), keysA (updateA j f l) = keysA l := by
  intro l
  induction l with
  | nil => rfl
  | cons p rest ih =>
    obtain ⟨i, a⟩ := p
    by_cases hij : i = j
    · simp [keysA, updateA, hij]
    · simp only [updateA, if_neg hij, keysA, List.map_cons, List.cons.injEq, true_and]
      simpa [keysA] using ih

theorem lookupA_append {κ α : Type} [DecidableEq κ] (k : κ) :
    ∀ l₁ l₂ : List (κ × α), lookupA k (l₁ ++ l₂) =
      match lookupA k l₁ with
      | some a => some a
      | Option.none => lookupA k l₂ := by
  intro l₁ l₂
  induction l₁ with
  | nil => simp [lookupA]
  | cons p rest ih =>
    obtain ⟨i, a⟩ := p
    by_cases hik : i = k <;> simp [lookupA, hik, ih]

theorem lookupA_none_of_not_mem {κ α : Type} [DecidableEq κ] (k : κ) :
    ∀ l : List (κ × α), k ∉ keysA l → lookupA k l = Option.none := by
  intro l
  induction l with
  | nil => intro _; rfl
  | cons p rest ih =>
    obtain ⟨i, a⟩ := p
    intro hk
    simp only [keysA, List.map_cons, List.mem_cons] at hk
    push_neg at hk
    have hik : ¬ i = k := fun h => hk.1 h.symm
    simp only [lookupA, if_neg hik]
    exact ih (by simpa [keysA] using hk.2)

theorem lookupA_isSome_of_mem {κ α : Type} [DecidableEq κ] (k : κ) :
    ∀ l : List (κ × α), k ∈ keysA l → (lookupA k l).isSome := by
  intro l
  induction l with
  | nil => intro h; simp [keysA] at h
  | cons p rest ih =>
    obtain ⟨i, a⟩ := p
    intro hk
    by_cases hik : i = k
    · simp [lookupA, hik]
    · simp only [keysA, List.map_cons, List.mem_cons] at hk
      rcases hk with hk | hk
      · exact absurd hk.symm hik
      · simpa [lookupA, hik] using ih (by simpa [keysA] using hk)

/-! ## OpenAI stream normalizer: tool-call accumulation
Embeds the loop body of OpenAIProvider.stream in agenix/core/llm.py that
accumulates delta.tool_calls fragments keyed by per-stream index, and the
post-stream finalization that parses the concatenated argument strings.
Optional strings tested for Python truthiness are plain strings with the
empty string standing for both None and the empty value. -/

/-- The function part of one raw chunk delta (tc.function, with tc.function.name
and tc.function.arguments). -/
structure FunctionDelta where
  name : String
  arguments : String

/-- One raw tool-call delta from a stream chunk (an element of
delta.tool_calls in OpenAIProvider.stream). -/
structure ToolCallDelta where
  index : Option Nat
  id : String
  function : Option FunctionDelta

/-- One accumulator entry of tool_calls_accumulator: id, name, arguments. -/
structure ToolCallAcc where
  id : String
  name : String
  arguments : String

/-- The index key actually used: tc.index if tc.index is not None else 0. -/
def effIndex (tc : ToolCallDelta) : Nat := tc.index.getD 0

/-- Applies the id update of one delta: if tc.id is truthy, overwrite. -/
def applyIdDelta (tcId : String) (a : ToolCallAcc) : ToolCallAcc :=
  if tcId ≠ "" then { a with id := tcId } else a

/-- Applies the function-part update of one delta: overwrite name when truthy,
append the argument fragment when truthy. -/
def applyFunctionDelta (fd : Option FunctionDelta) (a : ToolCallAcc) : ToolCallAcc :=
  match fd with
  | Option.none => a
  | some f =>
    let a1 := if f.name ≠ "" then { a with name := f.name } else a
    if f.arguments ≠ "" then { a1 with arguments := a1.arguments ++ f.arguments } else a1

/-- Processes one tool-call delta against the accumulator, translating the
per-delta body of OpenAIProvider.stream: compute the effective index, insert
a fresh entry (with default id call_index when tc.id is falsy) on first
sight of the index, then apply the id and function updates. -/
def processToolCallDelta (acc : List (Nat × ToolCallAcc)) (tc : ToolCallDelta) :
    List (Nat × ToolCallAcc) :=
  let tcIndex := effIndex tc
  let tcId := if tc.id ≠ "" then tc.id else "call_" ++ toString tcIndex
  let acc1 :=
    match lookupA tcIndex acc with
    | Option.none => acc ++ [(tcIndex, ⟨tcId, "", ""⟩)]
    | some _ => acc
  updateA tcIndex (fun a => applyFunctionDelta tc.function (applyIdDelta tc.id a)) acc1

/-- Folds a whole stream of tool-call deltas, in arrival order. -/
def processToolCallDeltas (acc : List (Nat × ToolCallAcc)) (ds : List ToolCallDelta) :
    List (Nat × ToolCallAcc) :=
  ds.foldl processToolCallDelta acc

/-- End-of-stream argument parsing: empty or blank concatenation gives an
empty mapping, a failed json.loads gives an empty mapping (the exception is
caught), otherwise the parsed value. jsonLoads stands for the external
json.loads, with Option.none modelling a raised JSONDecodeError. -/
def parseStreamArguments (jsonLoads : String → Option PyVal) (s : String) : PyVal :=
  if s = "" ∨ pyStrip s = "" then .pydict []
  else
    match jsonLoads s with
    | some v => v
    | Option.none => .pydict []

/-- Turns one finished accumulator entry into the emitted ToolCall. -/
def finalizeAcc (jsonLoads : String → Option PyVal) (a : ToolCallAcc) : ToolCall :=
  ⟨a.id, a.name, parseStreamArguments jsonLoads a.arguments⟩

/-- The tool calls yielded after the stream ends, one per accumulator entry in
insertion order (for tc_data in tool_calls_accumulator.values()). -/
def streamToolCalls (jsonLoads : String → Option PyVal) (ds : List ToolCallDelta) :
    List ToolCall :=
  (processToolCallDeltas [] ds).map (fun p => finalizeAcc jsonLoads p.2)

/-- The tool call finally emitted for a given stream index, when the index
occurred at all. -/
def emittedFor (jsonLoads : String → Option PyVal) (ds : List ToolCallDelta)
    (i : Nat) : Option ToolCall :=
  (lookupA i (processToolCallDeltas [] ds)).map (finalizeAcc jsonLoads)

/-! Reference functions, stated from the stream itself, against which the
accumulator is compared. -/

/-- The argument fragment carried by one delta (empty when the delta has no
function part). -/
def fragmentOf (tc : ToolCallDelta) : String :=
  match tc.function with
  | some f => f.arguments
  | Option.none => ""

/-- Concatenation, in arrival order, of the argument fragments of all deltas
with the given effective index. -/
def concatFragments (i : Nat) : List ToolCallDelta → String
  | [] => ""
  | tc :: ds => (if effIndex tc = i then fragmentOf tc else "") ++ concatFragments i ds

/-- Whether any delta in the stream has the given effective index. -/
def appearsIn (i : Nat) (ds : List ToolCallDelta) : Bool :=
  ds.any (fun tc => effIndex tc = i)

/-- The non-empty ids carried by deltas of the given index, in arrival order. -/
def nonEmptyIdsFor (i : Nat) : List ToolCallDelta → List String
  | [] => []
  | tc :: ds =>
    (if effIndex tc = i ∧ tc.id ≠ "" then [tc.id] else []) ++ nonEmptyIdsFor i ds

/-- The non-empty function names carried by deltas of the given index, in
arrival order. -/
def nonEmptyNamesFor (i : Nat) : List ToolCallDelta → List String
  | [] => []
  | tc :: ds =>
    (match tc.function with
     | some f => if effIndex tc = i ∧ f.name ≠ "" then [f.name] else []
     | Option.none => []) ++ nonEmptyNamesFor i ds

/-- The accumulator entry the reference predicts for an index that occurred:
last non-empty id (default call_index), last non-empty name (default empty),
concatenated fragments. -/
def specAcc (i : Nat) (ds : List ToolCallDelta) : ToolCallAcc :=
  ⟨(nonEmptyIdsFor i ds).getLast?.getD ("call_" ++ toString i),
   (nonEmptyNamesFor i ds).getLast?.getD "",
   concatFragments i ds⟩

theorem getLast?_getD_cons (l : List String) (x y : String) :
    ((x :: l).getLast?).getD y = (l.getLast?).getD x := by
  cases l with
  | nil => rfl
  | cons z l =>
    rw [List.getLast?_cons_cons]
    cases h : (z :: l).getLast? with
    | none => simp [List.getLast?_eq_none_iff] at h
    | some w => simp

theorem nonEmptyIdsFor_cons_ne {d : ToolCallDelta} {i : Nat}
    (h : ¬ effIndex d = i) (ds : List ToolCallDelta) :
    nonEmptyIdsFor i (d :: ds) = nonEmptyIdsFor i ds := by
  simp [nonEmptyIdsFor, h]

theorem nonEmptyNamesFor_cons_ne {d : ToolCallDelta} {i : Nat}
    (h : ¬ effIndex d = i) (ds : List ToolCallDelta) :
    nonEmptyNamesFor i (d :: ds) = nonEmptyNamesFor i ds := by
  cases hfd : d.function <;> simp [nonEmptyNamesFor, hfd, h]

theorem concatFragments_cons_ne {d : ToolCallDelta} {i : Nat}
    (h : ¬ effIndex d = i) (ds : List ToolCallDelta) :
    concatFragments i (d :: ds) = concatFragments i ds := by
  simp [concatFragments, h]

theorem appearsIn_cons_ne {d : ToolCallDelta} {i : Nat}
    (h : ¬ effIndex d = i) (ds : List ToolCallDelta) :
    appearsIn i (d :: ds) = appearsIn i ds := by
  simp [appearsIn, h]

theorem applyFunctionDelta_id (fd : Option FunctionDelta) (a : ToolCallAcc) :
    (applyFunctionDelta fd a).id = a.id := by
  cases fd with
  | none => rfl
  | some f =>
    simp only [applyFunctionDelta]
    by_cases h1 : f.name ≠ "" <;> by_cases h2 : f.arguments ≠ "" <;> simp [h1, h2]

theorem stepAcc_id (d : ToolCallDelta) (a : ToolCallAcc) :
    (applyFunctionDelta d.function (applyIdDelta d.id a)).id =
      if d.id ≠ "" then d.id else a.id := by
  rw [applyFunctionDelta_id]
  by_cases h : d.id ≠ "" <;> simp [applyIdDelta, h]

theorem applyIdDelta_name (tcId : String) (a : ToolCallAcc) :
    (applyIdDelta tcId a).name = a.name := by
  by_cases h : tcId ≠ "" <;> simp [applyIdDelta, h]

theorem applyIdDelta_arguments (tcId : String) (a : ToolCallAcc) :
    (applyIdDelta tcId a).arguments = a.arguments := by
  by_cases h : tcId ≠ "" <;> simp [applyIdDelta, h]

theorem stepAcc_name (d : ToolCallDelta) (a : ToolCallAcc) :
    (applyFunctionDelta d.function (applyIdDelta d.id a)).name =
      match d.function with
      | some f => if f.name ≠ "" then f.name else a.name
      | Option.none => a.name := by
  cases hfd : d.function with
  | none => simp [applyFunctionDelta, applyIdDelta_name]
  | some f =>
    simp only [applyFunctionDelta]
    by_cases h1 : f.name ≠ "" <;> by_cases h2 : f.arguments ≠ "" <;>
      simp [h1, h2, applyIdDelta_name]

theorem stepAcc_arguments (d : ToolCallDelta) (a : ToolCallAcc) :
    (applyFunctionDelta d.function (applyIdDelta d.id a)).arguments =
      a.arguments ++ fragmentOf d := by
  cases hfd : d.function with
  | none => simp [applyFunctionDelta, fragmentOf, hfd, applyIdDelta_arguments]
  | some f =>
    simp only [applyFunctionDelta, fragmentOf, hfd]
    by_cases h1 : f.name ≠ "" <;> by_cases h2 : f.arguments ≠ "" <;>
      simp_all [applyIdDelta_arguments]

/-- The central accumulator invariant: after folding the whole delta stream,
the entry stored for an index is exactly the reference prediction: last
non-empty id and name override the initial values, fragments concatenate in
arrival order, and an index absent from both the initial accumulator and the
stream stays absent. -/
theorem lookupA_processDeltas (ds : List ToolCallDelta) :
    ∀ (acc : List (Nat × ToolCallAcc)) (i : Nat),
      lookupA i (processToolCallDeltas acc ds) =
        match lookupA i acc with
        | some a =>
            some ⟨(nonEmptyIdsFor i ds).getLast?.getD a.id,
                  (nonEmptyNamesFor i ds).getLast?.getD a.name,
                  a.arguments ++ concatFragments i ds⟩
        | Option.none =>
            if appearsIn i ds then some (specAcc i ds) else Option.none := by
  induction ds with
  | nil =>
    intro acc i
    cases h : lookupA i acc <;>
      simp [processToolCallDeltas, nonEmptyIdsFor, nonEmptyNamesFor,
        concatFragments, appearsIn, h]
  | cons d ds ih =>
    intro acc i
    have hstep : processToolCallDeltas acc (d :: ds) =
        processToolCallDeltas (processToolCallDelta acc d) ds := rfl
    rw [hstep, ih]
    by_cases hidx : effIndex d = i
    · -- the head delta touches index i
      subst hidx
      have hlook : lookupA (effIndex d) (processToolCallDelta acc d) =
          some (applyFunctionDelta d.function (applyIdDelta d.id
            (match lookupA (effIndex d) acc with
             | some a => a
             | Option.none =>
                ⟨if d.id ≠ "" then d.id else "call_" ++ toString (effIndex d), "", ""⟩))) := by
        cases hacc : lookupA (effIndex d) acc with
        | none =>
          simp only [processToolCallDelta, hacc]
          rw [lookupA_updateA]
          simp [lookupA_append, hacc, lookupA]
        | some a =>
          simp only [processToolCallDelta, hacc]
          rw [lookupA_updateA]
          simp [hacc]
      rw [hlook]
      have hidEq : ∀ a0 : ToolCallAcc,
          (nonEmptyIdsFor (effIndex d) ds).getLast?.getD
              (applyFunctionDelta d.function (applyIdDelta d.id a0)).id =
            (nonEmptyIdsFor (effIndex d) (d :: ds)).getLast?.getD a0.id := by
        intro a0
        rw [stepAcc_id]
        by_cases hid : d.id ≠ ""
        · simp [nonEmptyIdsFor, hid, getLast?_getD_cons]
        · simp [nonEmptyIdsFor, hid]
      have hnameEq : ∀ a0 : ToolCallAcc,
          (nonEmptyNamesFor (effIndex d) ds).getLast?.getD
              (applyFunctionDelta d.function (applyIdDelta d.id a0)).name =
            (nonEmptyNamesFor (effIndex d) (d :: ds)).getLast?.getD a0.name := by
        intro a0
        rw [stepAcc_name]
        cases hfd : d.function with
        | none => simp [nonEmptyNamesFor, hfd]
        | some f =>
          by_cases hn : f.name ≠ ""
          · simp [nonEmptyNamesFor, hfd, hn, getLast?_getD_cons]
          · simp [nonEmptyNamesFor, hfd, hn]
      have hargEq : ∀ a0 : ToolCallAcc,
          (applyFunctionDelta d.function (applyIdDelta d.id a0)).arguments ++
              concatFragments (effIndex d) ds =
            a0.arguments ++ concatFragments (effIndex d) (d :: ds) := by
        intro a0
        rw [stepAcc_arguments]
        simp [concatFragments, String.append_assoc]
      cases hacc : lookupA (effIndex d) acc with
      | some a =>
        simp only [hacc]
        exact congrArg some (by
          have h1 := hidEq a
          have h2 := hnameEq a
          have h3 := hargEq a
          simp only [ToolCallAcc.mk.injEq]
          exact ⟨h1, h2, h3⟩)
      | none =>
        have happ : appearsIn (effIndex d) (d :: ds) = true := by
          simp [appearsIn]
        simp only [hacc, happ, if_true]
        refine congrArg some ?_
        have h1 := hidEq ⟨if d.id ≠ "" then d.id else "call_" ++ toString (effIndex d), "", ""⟩
        have h2 := hnameEq ⟨if d.id ≠ "" then d.id else "call_" ++ toString (effIndex d), "", ""⟩
        have h3 := hargEq ⟨if d.id ≠ "" then d.id else "call_" ++ toString (effIndex d), "", ""⟩
        simp only [specAcc, ToolCallAcc.mk.injEq]
        refine ⟨h1.trans ?_, h2.trans ?_, h3.trans ?_⟩
        · by_cases hid : d.id ≠ ""
          · have hne : nonEmptyIdsFor (effIndex d) (d :: ds)
                = d.id :: nonEmptyIdsFor (effIndex d) ds := by
              simp [nonEmptyIdsFor, hid]
            simp [hne, getLast?_getD_cons, hid]
          · simp [hid]
        · rfl
        · show ("" : String) ++ _ = _
          simp
    · -- the head delta touches a different index
      have hlook : lookupA i (processToolCallDelta acc d) = lookupA i acc := by
        simp only [processToolCallDelta]
        rw [lookupA_updateA]
        simp only [if_neg hidx]
        cases hacc : lookupA (effIndex d) acc with
        | none =>
          rw [lookupA_append]
          cases h2 : lookupA i acc <;> simp [lookupA, hidx, h2]
        | some a => rfl
      rw [hlook, nonEmptyIdsFor_cons_ne hidx, nonEmptyNamesFor_cons_ne hidx,
        concatFragments_cons_ne hidx]
      cases hacc : lookupA i acc with
      | some a => simp [hacc]
      | none =>
        rw [appearsIn_cons_ne hidx]
        simp only [hacc]
        by_cases happ : appearsIn i ds = true
        · simp only [happ, if_true]
          refine congrArg some ?_
          simp [specAcc, nonEmptyIdsFor_cons_ne hidx, nonEmptyNamesFor_cons_ne hidx,
            concatFragments_cons_ne hidx]
        · simp [happ]

theorem keysA_append {κ α : Type} (l₁ l₂ : List (κ × α)) :
    keysA (l₁ ++ l₂) = keysA l₁ ++ keysA l₂ := by
  simp [keysA]

theorem mem_keysA_of_lookupA {κ α : Type} [DecidableEq κ] {k : κ} {a : α} :
    ∀ {l : List (κ × α)}, lookupA k l = some a → k ∈ keysA l := by
  intro l
  induction l with
  | nil => intro h; simp [lookupA] at h
  | cons p rest ih =>
    obtain ⟨i, b⟩ := p
    intro h
    by_cases hik : i = k
    · simp [keysA, hik]
    · simp only [lookupA, if_neg hik] at h
      simp [keysA, List.mem_cons]
      right
      simpa [keysA] using ih h

theorem lookupA_mem {κ α : Type} [DecidableEq κ] {k : κ} {a : α} :
    ∀ {l : List (κ × α)}, lookupA k l = some a → (k, a) ∈ l := by
  intro l
  induction l with
  | nil => intro h; simp [lookupA] at h
  | cons p rest ih =>
    obtain ⟨i, b⟩ := p
    intro h
    by_cases hik : i = k
    · subst hik
      simp only [lookupA, eq_self_iff_true, if_true, Option.some.injEq] at h
      subst h
      exact List.mem_cons_self _ _
    · simp only [lookupA, if_neg hik] at h
      exact List.mem_cons_of_mem _ (ih h)

theorem keysA_processToolCallDelta (acc : List (Nat × ToolCallAcc)) (d : ToolCallDelta) :
    keysA (processToolCallDelta acc d) =
      if effIndex d ∈ keysA acc then keysA acc else keysA acc ++ [effIndex d] := by
  simp only [processToolCallDelta]
  cases hacc : lookupA (effIndex d) acc with
  | none =>
    have hmem : effIndex d ∉ keysA acc := by
      intro hm
      have := lookupA_isSome_of_mem _ _ hm
      simp [hacc] at this
    rw [keysA_updateA, keysA_append]
    simp only [keysA] at hmem
    simp [keysA, hmem]
  | some a =>
    have hmem : effIndex d ∈ keysA acc := mem_keysA_of_lookupA hacc
    rw [keysA_updateA]
    simp [hmem]

theorem keysA_processDeltas_nodup :
    ∀ (ds : List ToolCallDelta) (acc : List (Nat × ToolCallAcc)),
      (keysA acc).Nodup → (keysA (processToolCallDeltas acc ds)).Nodup := by
  intro ds
  induction ds with
  | nil => intro acc h; exact h
  | cons d ds ih =>
    intro acc h
    have hstep : processToolCallDeltas acc (d :: ds) =
        processToolCallDeltas (processToolCallDelta acc d) ds := rfl
    rw [hstep]
    refine ih _ ?_
    rw [keysA_processToolCallDelta]
    by_cases hm : effIndex d ∈ keysA acc
    · simpa [hm] using h
    · simp [hm, List.nodup_append, h]

theorem appearsIn_cons (d : ToolCallDelta) (ds : List ToolCallDelta) (i : Nat) :
    appearsIn i (d :: ds) = (decide (effIndex d = i) || appearsIn i ds) := by
  simp [appearsIn]

theorem mem_keysA_processDeltas :
    ∀ (ds : List ToolCallDelta) (acc : List (Nat × ToolCallAcc)) (i : Nat),
      i ∈ keysA (processToolCallDeltas acc ds) ↔
        i ∈ keysA acc ∨ appearsIn i ds = true := by
  intro ds
  induction ds with
  | nil => intro acc i; simp [processToolCallDeltas, appearsIn]
  | cons d ds ih =>
    intro acc i
    have hstep : processToolCallDeltas acc (d :: ds) =
        processToolCallDeltas (processToolCallDelta acc d) ds := rfl
    rw [hstep, ih, keysA_processToolCallDelta]
    by_cases hm : effIndex d ∈ keysA acc
    · simp only [if_pos hm, appearsIn_cons, Bool.or_eq_true, decide_eq_true_eq]
      constructor
      · rintro (h | h)
        · exact Or.inl h
        · exact Or.inr (Or.inr h)
      · rintro (h | h | h)
        · exact Or.inl h
        · exact Or.inl (h ▸ hm)
        · exact Or.inr h
    · simp only [if_neg hm, List.mem_append, List.mem_singleton, appearsIn_cons,
        Bool.or_eq_true, decide_eq_true_eq]
      constructor
      · rintro ((h | h) | h)
        · exact Or.inl h
        · exact Or.inr (Or.inl h.symm)
        · exact Or.inr (Or.inr h)
      · rintro (h | h | h)
        · exact Or.inl (Or.inl h)
        · exact Or.inl (Or.inr h.symm)
        · exact Or.inr h

theorem parseStreamArguments_blank (p : String → Option PyVal) (s : String)
    (h : pyStrip s = "") : parseStreamArguments p s = .pydict [] := by
  simp [parseStreamArguments, h]

theorem parseStreamArguments_fail (p : String → Option PyVal) (s : String)
    (h : p s = Option.none) : parseStreamArguments p s = .pydict [] := by
  by_cases hb : s = "" ∨ pyStrip s = "" <;> simp [parseStreamArguments, hb, h]

/-- The final lookup for an index that occurred gives exactly the reference
prediction. -/
theorem lookupA_streamAcc (ds : List ToolCallDelta) (i : Nat)
    (h : appearsIn i ds = true) :
    lookupA i (processToolCallDeltas [] ds) = some (specAcc i ds) := by
  have := lookupA_processDeltas ds [] i
  simpa [lookupA, h] using this

/-- C3: for every interleaving of tool-call argument fragment deltas across
stream indices, the ToolCall finally emitted for an index carries as its
arguments the single parse of the concatenation, in arrival order, of that
index's fragments; a blank concatenation or a failed parse both give the
empty mapping, and parsing is total (the embedded parse never raises: the
external json.loads failure is the Option.none case, turned into an empty
dict). -/
theorem C3_toolcall_arguments_concat_parse (p : String → Option PyVal)
    (ds : List ToolCallDelta) (i : Nat) (h : appearsIn i ds = true) :
    ∃ tc : ToolCall,
      emittedFor p ds i = some tc ∧
      tc ∈ streamToolCalls p ds ∧
      tc.arguments = parseStreamArguments p (concatFragments i ds) ∧
      (pyStrip (concatFragments i ds) = "" → tc.arguments = PyVal.pydict []) ∧
      (p (concatFragments i ds) = Option.none → tc.arguments = PyVal.pydict []) := by
  refine ⟨finalizeAcc p (specAcc i ds), ?_, ?_, rfl, ?_, ?_⟩
  · simp [emittedFor, lookupA_streamAcc ds i h]
  · exact List.mem_map.mpr ⟨(i, specAcc i ds), lookupA_mem (lookupA_streamAcc ds i h), rfl⟩
  · intro hb
    exact parseStreamArguments_blank p _ hb
  · intro hf
    exact parseStreamArguments_fail p _ hf

/-- Closed witness for C3 at a concrete two-fragment stream. -/
theorem C3_witness :
    appearsIn 1 [(⟨some 1, "x", some ⟨"t", "ab"⟩⟩ : ToolCallDelta),
                 ⟨some 1, "", some ⟨"", "cd"⟩⟩] = true ∧
    ∃ tc : ToolCall,
      emittedFor (fun _ => Option.none)
          [⟨some 1, "x", some ⟨"t", "ab"⟩⟩, ⟨some 1, "", some ⟨"", "cd"⟩⟩] 1 = some tc ∧
      tc ∈ streamToolCalls (fun _ => Option.none)
          [⟨some 1, "x", some ⟨"t", "ab"⟩⟩, ⟨some 1, "", some ⟨"", "cd"⟩⟩] ∧
      tc.arguments = parseStreamArguments (fun _ => Option.none)
          (concatFragments 1 [⟨some 1, "x", some ⟨"t", "ab"⟩⟩, ⟨some 1, "", some ⟨"", "cd"⟩⟩]) ∧
      (pyStrip (concatFragments 1 [⟨some 1, "x", some ⟨"t", "ab"⟩⟩,
          ⟨some 1, "", some ⟨"", "cd"⟩⟩]) = "" → tc.arguments = PyVal.pydict []) ∧
      ((fun _ => (Option.none : Option PyVal))
          (concatFragments 1 [⟨some 1, "x", some ⟨"t", "ab"⟩⟩, ⟨some 1, "", some ⟨"", "cd"⟩⟩]) =
            Option.none → tc.arguments = PyVal.pydict []) :=
  ⟨by decide, C3_toolcall_arguments_concat_parse (fun _ => Option.none) _ 1 (by decide)⟩

/-- The first non-empty id carried by deltas for an index (what the claim
asserts the normalizer keeps). -/
def firstNonEmptyIdFor (i : Nat) (ds : List ToolCallDelta) : Option String :=
  (nonEmptyIdsFor i ds).head?

/-- The first non-empty function name carried by deltas for an index. -/
def firstNonEmptyNameFor (i : Nat) (ds : List ToolCallDelta) : Option String :=
  (nonEmptyNamesFor i ds).head?

/-- C7 counterexample input: two deltas for index 0, each carrying an id and
a name. -/
def c7Deltas : List ToolCallDelta :=
  [⟨some 0, "a", some ⟨"f", ""⟩⟩, ⟨some 0, "b", some ⟨"g", ""⟩⟩]

/-- C7 is refuted as stated: with two deltas for index 0 carrying ids a then
b and names f then g, the emitted ToolCall has id b and name g, the last
non-empty values, not the first non-empty values a and f claimed. -/
theorem C7_counterexample :
    (streamToolCalls (fun _ => Option.none) c7Deltas).map ToolCall.id = ["b"] ∧
    (streamToolCalls (fun _ => Option.none) c7Deltas).map ToolCall.name = ["g"] ∧
    firstNonEmptyIdFor 0 c7Deltas = some "a" ∧
    firstNonEmptyNameFor 0 c7Deltas = some "f" ∧
    ("b" : String) ≠ "a" ∧ ("g" : String) ≠ "f" := by
  refine ⟨rfl, rfl, rfl, rfl, by decide, by decide⟩

/-- C7 amended: the normalizer accumulates fragments keyed by stream index
across the whole stream, emits exactly one completed ToolCall per index that
occurred, only after the stream has ended, and the emitted id and name equal
the LAST non-empty id and LAST non-empty name seen among that index's deltas
(the id defaulting to call_index when no delta carried one). -/
theorem C7_stream_accumulation_last_id_name (p : String → Option PyVal)
    (ds : List ToolCallDelta) (i : Nat) (h : appearsIn i ds = true) :
    ∃ tc : ToolCall,
      emittedFor p ds i = some tc ∧
      tc ∈ streamToolCalls p ds ∧
      tc.id = (nonEmptyIdsFor i ds).getLast?.getD ("call_" ++ toString i) ∧
      tc.name = (nonEmptyNamesFor i ds).getLast?.getD "" ∧
      (keysA (processToolCallDeltas [] ds)).Nodup ∧
      (∀ j : Nat, j ∈ keysA (processToolCallDeltas [] ds) ↔ appearsIn j ds = true) := by
  refine ⟨finalizeAcc p (specAcc i ds), ?_, ?_, rfl, rfl, ?_, ?_⟩
  · simp [emittedFor, lookupA_streamAcc ds i h]
  · exact List.mem_map.mpr ⟨(i, specAcc i ds), lookupA_mem (lookupA_streamAcc ds i h), rfl⟩
  · exact keysA_processDeltas_nodup ds [] (by simp [keysA])
  · intro j
    rw [mem_keysA_processDeltas]
    simp [keysA]

/-- Closed witness for the amended C7 at a concrete stream. -/
theorem C7_witness :
    appearsIn 0 c7Deltas = true ∧
    ∃ tc : ToolCall,
      emittedFor (fun _ => Option.none) c7Deltas 0 = some tc ∧
      tc ∈ streamToolCalls (fun _ => Option.none) c7Deltas ∧
      tc.id = (nonEmptyIdsFor 0 c7Deltas).getLast?.getD ("call_" ++ toString 0) ∧
      tc.name = (nonEmptyNamesFor 0 c7Deltas).getLast?.getD "" ∧
      (keysA (processToolCallDeltas [] c7Deltas)).Nodup ∧
      (∀ j : Nat, j ∈ keysA (processToolCallDeltas [] c7Deltas) ↔
        appearsIn j c7Deltas = true) :=
  ⟨by decide, C7_stream_accumulation_last_id_name (fun _ => Option.none) c7Deltas 0 (by decide)⟩

/-! ## Message accumulator
Embeds the streaming body of Agent._stream_llm_response in
agenix/core/agent.py: the text buffer, the insertion-ordered reasoning
buffers keyed by block id, the completed tool-call list, the captured finish
reason, and the finalization into one AssistantMessage. -/

/-- The mutable local state of the streaming loop: text_parts,
tool_calls_list, reasoning_parts and finish_reason. -/
structure StreamAccState where
  textParts : List String
  toolCallsList : List ToolCall
  reasoningParts : List (String × String)
  finishReason : Option String

/-- Initial accumulator state at stream start. -/
def initAccState : StreamAccState := ⟨[], [], [], Option.none⟩

/-- The effective reasoning block id: event.reasoning_block_id or default
(None and the empty string are both falsy). -/
def effReasoningId (rid : String) : String := if rid = "" then "default" else rid

/-- One iteration of the async-for body over canonical stream events. The
first reasoning delta for an id inserts the entry (the source initializes it
to the empty string and immediately appends the delta); a finish event with
a truthy reason overwrites the captured finish reason. -/
def accStep (st : StreamAccState) (e : StreamEvent) : StreamAccState :=
  match e with
  | .textDelta d => { st with textParts := st.textParts ++ [d] }
  | .reasoningDelta d rid0 =>
    let rid := effReasoningId rid0
    match lookupA rid st.reasoningParts with
    | Option.none => { st with reasoningParts := st.reasoningParts ++ [(rid, d)] }
    | some _ =>
      { st with reasoningParts := updateA rid (fun s => s ++ d) st.reasoningParts }
  | .toolCall tcOpt =>
    match tcOpt with
    | some tc => { st with toolCallsList := st.toolCallsList ++ [tc] }
    | Option.none => st
  | .finish r => if r ≠ "" then { st with finishReason := some r } else st

/-- The empty-separator join used to merge text deltas. -/
def joinParts : List String → String
  | [] => ""
  | s :: rest => s ++ joinParts rest

/-- Finalization at end of stream: reasoning blocks first in insertion order,
then the merged text block when any text delta arrived; stop_reason is the
captured finish reason, else inferred from the tool-call list; usage is
deliberately left absent. -/
def finalizeMessage (model : String) (st : StreamAccState) : AssistantMessage :=
  { content :=
      st.reasoningParts.map (fun p => ContentBlock.reasoning p.2 p.1)
        ++ (if st.textParts.isEmpty then []
            else [ContentBlock.text (joinParts st.textParts)])
    toolCalls := st.toolCallsList
    model := model
    usage := Option.none
    stopReason :=
      match st.finishReason with
      | some r => some r
      | Option.none =>
        some (if st.toolCallsList.isEmpty then "stop" else "tool_calls") }

/-- The whole happy-path streaming turn: fold the canonical events and
finalize. -/
def accumulateEvents (model : String) (evs : List StreamEvent) : AssistantMessage :=
  finalizeMessage model (evs.foldl accStep initAccState)

/-! Reference functions over the raw event sequence. -/

/-- The text deltas received, in order. -/
def textDeltasOf : List StreamEvent → List String
  | [] => []
  | .textDelta d :: evs => d :: textDeltasOf evs
  | _ :: evs => textDeltasOf evs

/-- The completed tool calls received, in order. -/
def toolCallsProduced : List StreamEvent → List ToolCall
  | [] => []
  | .toolCall (some tc) :: evs => tc :: toolCallsProduced evs
  | _ :: evs => toolCallsProduced evs

/-- The truthy finish reasons received, in order. -/
def truthyFinishes : List StreamEvent → List String
  | [] => []
  | .finish r :: evs => (if r ≠ "" then [r] else []) ++ truthyFinishes evs
  | _ :: evs => truthyFinishes evs

/-- The concatenation, in arrival order, of the reasoning deltas whose
effective block id is the given one. -/
def reasoningTextFor (rid : String) : List StreamEvent → String
  | [] => ""
  | .reasoningDelta d rid0 :: evs =>
      (if effReasoningId rid0 = rid then d else "") ++ reasoningTextFor rid evs
  | _ :: evs => reasoningTextFor rid evs

/-- Effective reasoning block ids not already known, in first-seen order. -/
def newRids (ks : List String) : List StreamEvent → List String
  | [] => []
  | .reasoningDelta _ rid0 :: evs =>
    let rid := effReasoningId rid0
    if rid ∈ ks then newRids ks evs else rid :: newRids (ks ++ [rid]) evs
  | _ :: evs => newRids ks evs

theorem mem_newRids_not_mem {r : String} :
    ∀ (evs : List StreamEvent) (ks : List String), r ∈ newRids ks evs → r ∉ ks := by
  intro evs
  induction evs with
  | nil => intro ks h; simp [newRids] at h
  | cons e evs ih =>
    intro ks h
    cases e with
    | reasoningDelta d rid0 =>
      simp only [newRids] at h
      by_cases hm : effReasoningId rid0 ∈ ks
      · exact ih ks (by simpa [hm] using h)
      · simp only [if_neg hm, List.mem_cons] at h
        rcases h with h | h
        · subst h; exact hm
        · intro hk
          exact ih (ks ++ [effReasoningId rid0]) h (by simp [hk])
    | textDelta d => exact ih ks h
    | toolCall tcOpt => exact ih ks h
    | finish r0 => exact ih ks h

theorem textParts_foldAcc :
    ∀ (evs : List StreamEvent) (st : StreamAccState),
      (evs.foldl accStep st).textParts = st.textParts ++ textDeltasOf evs := by
  intro evs
  induction evs with
  | nil => intro st; simp [textDeltasOf]
  | cons e evs ih =>
    intro st
    have hstep : (e :: evs).foldl accStep st = evs.foldl accStep (accStep st e) := rfl
    rw [hstep, ih]
    cases e with
    | textDelta d => simp [accStep, textDeltasOf]
    | reasoningDelta d rid0 =>
      simp only [accStep]
      cases lookupA (effReasoningId rid0) st.reasoningParts <;> simp [textDeltasOf]
    | toolCall tcOpt => cases tcOpt <;> simp [accStep, textDeltasOf]
    | finish r => by_cases hr : r ≠ "" <;> simp [accStep, hr, textDeltasOf]

theorem toolCalls_foldAcc :
    ∀ (evs : List StreamEvent) (st : StreamAccState),
      (evs.foldl accStep st).toolCallsList = st.toolCallsList ++ toolCallsProduced evs := by
  intro evs
  induction evs with
  | nil => intro st; simp [toolCallsProduced]
  | cons e evs ih =>
    intro st
    have hstep : (e :: evs).foldl accStep st = evs.foldl accStep (accStep st e) := rfl
    rw [hstep, ih]
    cases e with
    | textDelta d => simp [accStep, toolCallsProduced]
    | reasoningDelta d rid0 =>
      simp only [accStep]
      cases lookupA (effReasoningId rid0) st.reasoningParts <;> simp [toolCallsProduced]
    | toolCall tcOpt => cases tcOpt <;> simp [accStep, toolCallsProduced]
    | finish r => by_cases hr : r ≠ "" <;> simp [accStep, hr, toolCallsProduced]

theorem finish_foldAcc :
    ∀ (evs : List StreamEvent) (st : StreamAccState),
      (evs.foldl accStep st).finishReason =
        match (truthyFinishes evs).getLast? with
        | some r => some r
        | Option.none => st.finishReason := by
  intro evs
  induction evs with
  | nil => intro st; simp [truthyFinishes]
  | cons e evs ih =>
    intro st
    have hstep : (e :: evs).foldl accStep st = evs.foldl accStep (accStep st e) := rfl
    rw [hstep, ih]
    cases e with
    | textDelta d => simp [accStep, truthyFinishes]
    | reasoningDelta d rid0 =>
      simp only [accStep]
      cases lookupA (effReasoningId rid0) st.reasoningParts <;> simp [truthyFinishes]
    | toolCall tcOpt => cases tcOpt <;> simp [accStep, truthyFinishes]
    | finish r =>
      have hfr : (accStep st (.finish r)).finishReason =
          if r ≠ "" then some r else st.finishReason := by
        by_cases hr : r ≠ "" <;> simp [accStep, hr]
      rw [hfr]
      by_cases hr : r ≠ ""
      · have htf : truthyFinishes (StreamEvent.finish r :: evs) =
            r :: truthyFinishes evs := by
          simp [truthyFinishes, hr]
        rw [htf, if_pos hr]
        cases hl : (truthyFinishes evs).getLast? with
        | none =>
          rw [List.getLast?_eq_none_iff] at hl
          rw [hl]
          rfl
        | some w =>
          have hne : truthyFinishes evs ≠ [] := by
            intro hnil
            rw [hnil] at hl
            simp at hl
          obtain ⟨z, l, hzl⟩ := List.exists_cons_of_ne_nil hne
          rw [hzl] at hl ⊢
          rw [List.getLast?_cons_cons, hl]
      · have htf : truthyFinishes (StreamEvent.finish r :: evs) =
            truthyFinishes evs := by
          simp [truthyFinishes, hr]
        rw [htf, if_neg hr]

theorem reasoningTextFor_cons_delta (k d rid0 : String) (evs : List StreamEvent) :
    reasoningTextFor k (.reasoningDelta d rid0 :: evs) =
      if effReasoningId rid0 = k then d ++ reasoningTextFor k evs
      else reasoningTextFor k evs := by
  by_cases h : effReasoningId rid0 = k <;> simp [reasoningTextFor, h]

theorem updateA_map_absorb (rid d : String) (f : String → String) :
    ∀ parts : List (String × String), (keysA parts).Nodup →
      (updateA rid (fun s => s ++ d) parts).map (fun p => (p.1, p.2 ++ f p.1)) =
        parts.map (fun p => (p.1, p.2 ++ (if rid = p.1 then d ++ f p.1 else f p.1))) := by
  intro parts
  induction parts with
  | nil => intro _; rfl
  | cons p parts ih =>
    intro hnd
    obtain ⟨k, v⟩ := p
    have hnd2 : (keysA parts).Nodup := (List.nodup_cons.mp (by simpa [keysA] using hnd)).2
    have hknot : k ∉ keysA parts := (List.nodup_cons.mp (by simpa [keysA] using hnd)).1
    by_cases hk : k = rid
    · subst hk
      simp only [updateA, if_pos rfl, List.map_cons, if_pos rfl]
      refine congrArg₂ List.cons ?_ ?_
      · exact congrArg (Prod.mk k) (String.append_assoc v d (f k))
      · refine List.map_congr_left ?_
        intro p hp
        have hpk : ¬ k = p.1 := by
          intro hpk
          exact hknot (by rw [hpk]; exact List.mem_map_of_mem Prod.fst hp)
        simp [hpk]
    · have hk2 : ¬ rid = k := fun h => hk h.symm
      simp only [updateA, if_neg hk, List.map_cons, if_neg hk2]
      exact congrArg _ (ih hnd2)

theorem reasoningParts_foldAcc :
    ∀ (evs : List StreamEvent) (st : StreamAccState),
      (keysA st.reasoningParts).Nodup →
      (evs.foldl accStep st).reasoningParts =
        st.reasoningParts.map (fun p => (p.1, p.2 ++ reasoningTextFor p.1 evs))
          ++ (newRids (keysA st.reasoningParts) evs).map
              (fun rid => (rid, reasoningTextFor rid evs)) := by
  intro evs
  induction evs with
  | nil =>
    intro st hnd
    simp [reasoningTextFor, newRids]
  | cons e evs ih =>
    intro st hnd
    have hstep : (e :: evs).foldl accStep st = evs.foldl accStep (accStep st e) := rfl
    rw [hstep]
    cases e with
    | textDelta d =>
      rw [ih (accStep st (.textDelta d)) (by simpa [accStep] using hnd)]
      simp [accStep, reasoningTextFor, newRids]
    | toolCall tcOpt =>
      cases tcOpt with
      | none =>
        rw [ih _ (by simpa [accStep] using hnd)]
        simp [accStep, reasoningTextFor, newRids]
      | some tc =>
        rw [ih _ (by simpa [accStep] using hnd)]
        simp [accStep, reasoningTextFor, newRids]
    | finish r =>
      have h1 : (accStep st (.finish r)).reasoningParts = st.reasoningParts := by
        by_cases hr : r ≠ "" <;> simp [accStep, hr]
      rw [ih _ (by rw [h1]; exact hnd), h1]
      simp [reasoningTextFor, newRids]
    | reasoningDelta d rid0 =>
      cases hl : lookupA (effReasoningId rid0) st.reasoningParts with
      | some s =>
        have hparts : (accStep st (.reasoningDelta d rid0)).reasoningParts =
            updateA (effReasoningId rid0) (fun s => s ++ d) st.reasoningParts := by
          simp [accStep, hl]
        have hkeys : keysA (accStep st (.reasoningDelta d rid0)).reasoningParts =
            keysA st.reasoningParts := by
          rw [hparts, keysA_updateA]
        rw [ih _ (by rw [hkeys]; exact hnd), hparts, keysA_updateA]
        have hmem : effReasoningId rid0 ∈ keysA st.reasoningParts :=
          mem_keysA_of_lookupA hl
        have hnew : newRids (keysA st.reasoningParts)
            (StreamEvent.reasoningDelta d rid0 :: evs) =
            newRids (keysA st.reasoningParts) evs := by
          simp [newRids, hmem]
        rw [hnew]
        refine congrArg₂ (· ++ ·) ?_ ?_
        · refine (updateA_map_absorb (effReasoningId rid0) d
            (fun k => reasoningTextFor k evs) st.reasoningParts hnd).trans ?_
          refine List.map_congr_left ?_
          intro p _
          rw [reasoningTextFor_cons_delta]
        · refine List.map_congr_left ?_
          intro r hr
          have hrk : r ∉ keysA st.reasoningParts := mem_newRids_not_mem evs _ hr
          have : ¬ effReasoningId rid0 = r := fun h => hrk (h ▸ hmem)
          rw [reasoningTextFor_cons_delta, if_neg this]
      | none =>
        have hnot : effReasoningId rid0 ∉ keysA st.reasoningParts := by
          intro hm
          have := lookupA_isSome_of_mem _ _ hm
          simp [hl] at this
        have hparts : (accStep st (.reasoningDelta d rid0)).reasoningParts =
            st.reasoningParts ++ [(effReasoningId rid0, d)] := by
          simp [accStep, hl]
        have hkeys : keysA (accStep st (.reasoningDelta d rid0)).reasoningParts =
            keysA st.reasoningParts ++ [effReasoningId rid0] := by
          rw [hparts, keysA_append]; rfl
        have hnd2 : (keysA (accStep st (.reasoningDelta d rid0)).reasoningParts).Nodup := by
          rw [hkeys]
          simp [List.nodup_append, hnot, hnd]
        have hsing : keysA [((effReasoningId rid0 : String), d)] = [effReasoningId rid0] := rfl
        rw [ih _ hnd2, hparts, keysA_append, hsing]
        have hnew : newRids (keysA st.reasoningParts)
            (StreamEvent.reasoningDelta d rid0 :: evs) =
            effReasoningId rid0 ::
              newRids (keysA st.reasoningParts ++ [effReasoningId rid0]) evs := by
          simp [newRids, hnot]
        rw [hnew]
        rw [List.map_append, List.map_cons]
        have hhead : ((effReasoningId rid0 : String), d ++ reasoningTextFor (effReasoningId rid0) evs) =
            (effReasoningId rid0,
              reasoningTextFor (effReasoningId rid0) (.reasoningDelta d rid0 :: evs)) := by
          rw [reasoningTextFor_cons_delta, if_pos rfl]
        have hbody : st.reasoningParts.map
              (fun p => (p.1, p.2 ++ reasoningTextFor p.1 evs)) =
            st.reasoningParts.map
              (fun p => (p.1, p.2 ++ reasoningTextFor p.1 (.reasoningDelta d rid0 :: evs))) := by
          refine List.map_congr_left ?_
          intro p hp
          have hpk : p.1 ∈ keysA st.reasoningParts := List.mem_map_of_mem Prod.fst hp
          have : ¬ effReasoningId rid0 = p.1 := fun h => hnot (h ▸ hpk)
          rw [reasoningTextFor_cons_delta, if_neg this]
        have htail : (newRids (keysA st.reasoningParts ++ [effReasoningId rid0]) evs).map
              (fun rid => (rid, reasoningTextFor rid evs)) =
            (newRids (keysA st.reasoningParts ++ [effReasoningId rid0]) evs).map
              (fun rid => (rid, reasoningTextFor rid (.reasoningDelta d rid0 :: evs))) := by
          refine List.map_congr_left ?_
          intro r hr
          have hrk : r ∉ keysA st.reasoningParts ++ [effReasoningId rid0] :=
            mem_newRids_not_mem evs _ hr
          have : ¬ effReasoningId rid0 = r := by
            intro h
            exact hrk (by simp [h])
          rw [reasoningTextFor_cons_delta, if_neg this]
        rw [hbody, htail]
        simp [hhead]

/-- C6: on stream completion the finalized AssistantMessage content equals
the reasoning blocks in first-seen order of effective block id, followed by
a single text block present iff any text delta was received (possibly the
empty list); its tool calls are those produced by the stream, and its
stop_reason is the Finish event value when exactly one truthy Finish was
received, else tool_calls when any tool call was produced, else stop. -/
theorem C6_finalized_message (model : String) (evs : List StreamEvent) :
    (accumulateEvents model evs).content =
        (newRids [] evs).map
          (fun rid => ContentBlock.reasoning (reasoningTextFor rid evs) rid)
        ++ (if (textDeltasOf evs).isEmpty then []
            else [ContentBlock.text (joinParts (textDeltasOf evs))]) ∧
    (accumulateEvents model evs).toolCalls = toolCallsProduced evs ∧
    (∀ r : String, truthyFinishes evs = [r] →
      (accumulateEvents model evs).stopReason = some r) ∧
    (truthyFinishes evs = [] →
      (accumulateEvents model evs).stopReason =
        some (if (toolCallsProduced evs).isEmpty then "stop" else "tool_calls")) := by
  have hinit : (keysA initAccState.reasoningParts).Nodup := by
    simp [initAccState, keysA]
  have hr := reasoningParts_foldAcc evs initAccState hinit
  have ht := textParts_foldAcc evs initAccState
  have htc := toolCalls_foldAcc evs initAccState
  have hf := finish_foldAcc evs initAccState
  refine ⟨?_, ?_, ?_, ?_⟩
  · show (finalizeMessage model (evs.foldl accStep initAccState)).content = _
    simp only [finalizeMessage]
    rw [hr, ht]
    simp [initAccState, keysA, List.map_map, Function.comp]
  · show (finalizeMessage model (evs.foldl accStep initAccState)).toolCalls = _
    simp only [finalizeMessage]
    rw [htc]
    simp [initAccState]
  · intro r h
    show (finalizeMessage model (evs.foldl accStep initAccState)).stopReason = _
    simp only [finalizeMessage]
    rw [hf, h]
    rfl
  · intro h
    show (finalizeMessage model (evs.foldl accStep initAccState)).stopReason = _
    simp only [finalizeMessage]
    rw [hf, htc, h]
    simp [initAccState]

/-- Concrete stream used by the C6 witness: one reasoning block, split text,
one tool call, one finish event. -/
def c6Events : List StreamEvent :=
  [.reasoningDelta "think" "r1", .textDelta "Hel", .textDelta "lo",
   .toolCall (some ⟨"c1", "t", .pydict []⟩), .finish "tool_calls"]

/-- Closed witness for C6 on a concrete stream, discharging the
one-truthy-finish hypothesis there. -/
theorem C6_witness :
    truthyFinishes c6Events = ["tool_calls"] ∧
    (accumulateEvents "m" c6Events).stopReason = some "tool_calls" :=
  ⟨rfl, (C6_finalized_message "m" c6Events).2.2.1 "tool_calls" rfl⟩

/-! ## Turn loop
Embeds Agent._run_loop, Agent._should_continue_loop and Agent._execute_tool
from agenix/core/agent.py. The provider is abstracted as an oracle giving,
per turn and current history, either a canonical event stream or a raised
exception; tools are a name lookup returning an execute behavior that either
returns a result (content plus error flag) or raises. -/

/-- LoopState from agenix/core/agent.py. -/
structure LoopState where
  turn : Nat := 0
  totalToolCalls : Nat := 0
  consecutiveErrors : Nat := 0
  lastAction : String := ""
  hasMadeProgress : Bool := false

/-- The AgentConfig fields the loop reads (provider construction is out of
scope; defaults as in the source). -/
structure AgentConfig where
  model : String
  maxTurns : Nat := 10
  maxToolCallsPerTurn : Nat := 20
  maxTokens : Nat := 16384

/-- A tool execute body either returns a ToolResult (content and error flag)
or raises an exception carrying a message. -/
inductive ExecBehavior where
  | returns (content : String) (isError : Bool)
  | raises (msg : String)

/-- The agent's tool_map: name to execute body, taking the call id and the
arguments. -/
def ToolMap : Type := String → Option (String → PyVal → ExecBehavior)

/-- Agent._execute_tool collapsed to the single ToolExecutionEnd event it
always produces (converted by the loop into one ToolResultMessage): unknown
tool and raised exception both give an error result, a returned ToolResult
passes content and flag through. -/
def executeTool (tools : ToolMap) (tc : ToolCall) : ToolResultMessage :=
  match tools tc.name with
  | Option.none =>
    ⟨tc.id, tc.name, "Error: Tool \x27" ++ tc.name ++ "\x27 not found", true⟩
  | some execute =>
    match execute tc.id tc.arguments with
    | .returns content isError => ⟨tc.id, tc.name, content, isError⟩
    | .raises msg => ⟨tc.id, tc.name, "Error executing tool: " ++ msg, true⟩

/-- The invalid-arguments error content built inline in Agent._run_loop. -/
def invalidArgumentsContent (tc : ToolCall) : String :=
  "Error: Tool \x27" ++ tc.name ++ "\x27 called with invalid arguments. Received: "
    ++ pyRepr tc.arguments
    ++ ". Please check the tool\x27s required parameters and try again with valid arguments."

/-- One tool call as dispatched inside the per-turn loop: falsy or non-dict
arguments are rejected before any lookup, otherwise the call is executed. -/
def runToolCall (tools : ToolMap) (tc : ToolCall) : ToolResultMessage :=
  if pyFalsy tc.arguments || !(pyIsDict tc.arguments) then
    ⟨tc.id, tc.name, invalidArgumentsContent tc, true⟩
  else
    executeTool tools tc

/-- The error_count accumulated over a turn equals the number of error
results (both the invalid-arguments branch and error end events count). -/
def countErrors (rs : List ToolResultMessage) : Nat :=
  (rs.filter (fun r => r.isError)).length

/-- The progress check of Agent._run_loop on a finalized (list-shaped)
assistant message content: any text or reasoning block whose stripped text
is non-empty. -/
def contentHasProgress (content : List ContentBlock) : Bool :=
  !content.isEmpty && content.any fun c =>
    match c with
    | .text t => pyStrip t ≠ ""
    | .reasoning t _ => pyStrip t ≠ ""
    | .image _ => false

/-- The progress-tracking update of Agent._run_loop. -/
def progressUpdate (st : LoopState) (am : AssistantMessage) : LoopState :=
  if contentHasProgress am.content then
    { st with hasMadeProgress := true, lastAction := "text" }
  else st

/-- Agent._should_continue_loop, translated clause for clause. -/
def shouldContinueLoop (st : LoopState) (message : AssistantMessage) : Bool :=
  if st.consecutiveErrors ≥ 3 then false
  else if !message.toolCalls.isEmpty then true
  else if message.stopReason = some "length" then true
  else if st.hasMadeProgress && message.toolCalls.isEmpty then false
  else false

/-- Reference continuation policy following the words of the spec, rules in
order: 1. three consecutive errors stop; 2. tool calls continue; 3. stop
reason length continues; 4. progress made with no tool calls stops;
5. otherwise stop. -/
def shouldContinueSpec (st : LoopState) (message : AssistantMessage) : Bool :=
  if 3 ≤ st.consecutiveErrors then false
  else if message.toolCalls.length ≠ 0 then true
  else if message.stopReason = some "length" then true
  else if st.hasMadeProgress = true ∧ message.toolCalls.length = 0 then false
  else false

/-- What the provider stream does in one turn: yield canonical events, or
raise mid-stream. -/
inductive StreamOutcome where
  | events (evs : List StreamEvent)
  | raises (msg : String)

/-- Agent._stream_llm_response: on success the accumulated message, on an
exception the synthesized error message with a single text block and
stop_reason error. -/
def streamResponse (model : String) (out : StreamOutcome) : AssistantMessage :=
  match out with
  | .events evs => accumulateEvents model evs
  | .raises e =>
    { content := [ContentBlock.text ("Error: " ++ e)]
      toolCalls := []
      model := model
      usage := Option.none
      stopReason := some "error" }

/-- The result of one turn body: the finalized assistant message, the tool
results appended, the history after the turn, the loop state after the
turn. -/
structure TurnResult where
  message : AssistantMessage
  toolResults : List ToolResultMessage
  messages : List Message
  state : LoopState

/-- The state change of the tool-execution block of a turn: skipped entirely
when the assistant message has no tool calls; otherwise last_action becomes
tool_call, total_tool_calls counts the attempted (truncated) calls, and
consecutive_errors is incremented when all attempted calls errored, reset to
zero (with progress marked) otherwise. -/
def turnStateUpdate (cfg : AgentConfig) (tools : ToolMap) (st1 : LoopState)
    (am : AssistantMessage) : LoopState :=
  if am.toolCalls.isEmpty then st1
  else
    let attempted := am.toolCalls.take cfg.maxToolCallsPerTurn
    let results := attempted.map (runToolCall tools)
    let stt := { st1 with lastAction := "tool_call",
                          totalToolCalls := st1.totalToolCalls + attempted.length }
    if countErrors results = results.length ∧ 0 < countErrors results then
      { stt with consecutiveErrors := stt.consecutiveErrors + 1, lastAction := "error" }
    else
      { stt with consecutiveErrors := 0, hasMadeProgress := true }

/-- One iteration of the for-turn body of Agent._run_loop: stream and
accumulate, append the assistant message, track progress, execute the tool
calls truncated to max_tool_calls_per_turn appending one result message
each, then update the consecutive-error counters exactly when the turn
attempted tool calls. -/
def runTurn (cfg : AgentConfig) (tools : ToolMap) (turn : Nat)
    (msgs : List Message) (st : LoopState) (out : StreamOutcome) : TurnResult :=
  let st0 := { st with turn := turn }
  let am := streamResponse cfg.model out
  let msgs1 := msgs ++ [Message.assistant am]
  let st1 := progressUpdate st0 am
  let attempted := am.toolCalls.take cfg.maxToolCallsPerTurn
  let results := attempted.map (runToolCall tools)
  let msgs2 := msgs1 ++ results.map Message.toolResult
  ⟨am, results, msgs2, turnStateUpdate cfg tools st1 am⟩

/-- Turn-level lifecycle event tags of the emitted stream. -/
inductive EvTag where
  | agentStart
  | turnStart
  | turnEnd
  | agentEnd
deriving DecidableEq

/-- Result of running the bounded turn loop. -/
structure TurnsResult where
  trace : List EvTag
  messages : List Message
  state : LoopState

/-- The for-turn loop with its remaining-iteration fuel (range max_turns):
each executed turn contributes TurnStart and TurnEnd, and the loop exits
early when the continuation policy says stop. -/
def runTurns (cfg : AgentConfig) (tools : ToolMap)
    (oracle : Nat → List Message → StreamOutcome) :
    Nat → Nat → List Message → LoopState → TurnsResult
  | 0, _, msgs, st => ⟨[], msgs, st⟩
  | fuel + 1, turn, msgs, st =>
    let tr := runTurn cfg tools turn msgs st (oracle turn msgs)
    if shouldContinueLoop tr.state tr.message then
      let rest := runTurns cfg tools oracle fuel (turn + 1) tr.messages tr.state
      ⟨[EvTag.turnStart, EvTag.turnEnd] ++ rest.trace, rest.messages, rest.state⟩
    else
      ⟨[EvTag.turnStart, EvTag.turnEnd], tr.messages, tr.state⟩

/-- Result of one whole Agent._run_loop call. -/
structure LoopResult where
  trace : List EvTag
  messages : List Message
  state : LoopState

/-- Agent._run_loop: emit AgentStart, reset the loop state, run at most
max_turns turns, emit AgentEnd. -/
def runLoop (cfg : AgentConfig) (tools : ToolMap)
    (oracle : Nat → List Message → StreamOutcome) (msgs0 : List Message) : LoopResult :=
  let r := runTurns cfg tools oracle cfg.maxTurns 0 msgs0 ⟨0, 0, 0, "", false⟩
  ⟨[EvTag.agentStart] ++ r.trace ++ [EvTag.agentEnd], r.messages, r.state⟩

/-- Agent.prompt: append the user message, then run the loop. -/
def promptRun (cfg : AgentConfig) (tools : ToolMap)
    (oracle : Nat → List Message → StreamOutcome)
    (history : List Message) (userMessage : String) : LoopResult :=
  runLoop cfg tools oracle (history ++ [Message.user userMessage])

theorem runTurns_trace_count (cfg : AgentConfig) (tools : ToolMap)
    (oracle : Nat → List Message → StreamOutcome) :
    ∀ (fuel turn : Nat) (msgs : List Message) (st : LoopState),
      (runTurns cfg tools oracle fuel turn msgs st).trace.count EvTag.turnStart ≤ fuel := by
  intro fuel
  induction fuel with
  | zero => intro turn msgs st; simp [runTurns]
  | succ fuel ih =>
    intro turn msgs st
    simp only [runTurns]
    split
    · have h2 := ih (turn + 1)
        (runTurn cfg tools turn msgs st (oracle turn msgs)).messages
        (runTurn cfg tools turn msgs st (oracle turn msgs)).state
      simp only [List.count_append]
      have h1 : List.count EvTag.turnStart [EvTag.turnStart, EvTag.turnEnd] = 1 := by decide
      omega
    · have h1 : List.count EvTag.turnStart [EvTag.turnStart, EvTag.turnEnd] = 1 := by decide
      show List.count EvTag.turnStart [EvTag.turnStart, EvTag.turnEnd] ≤ fuel + 1
      omega

/-- C1: regardless of provider oracle and tool behavior, one prompt call
executes at most max_turns turns (TurnStart events) and ends by emitting
AgentEnd; the loop is a total function (runTurns is structurally recursive
on the max_turns fuel). -/
theorem C1_turn_loop_bounded (cfg : AgentConfig) (tools : ToolMap)
    (oracle : Nat → List Message → StreamOutcome)
    (history : List Message) (userMessage : String) :
    (promptRun cfg tools oracle history userMessage).trace.count EvTag.turnStart
        ≤ cfg.maxTurns ∧
    (promptRun cfg tools oracle history userMessage).trace.getLast?
        = some EvTag.agentEnd := by
  constructor
  · simp only [promptRun, runLoop]
    rw [List.count_append, List.count_append]
    have h := runTurns_trace_count cfg tools oracle cfg.maxTurns 0
      (history ++ [Message.user userMessage]) ⟨0, 0, 0, "", false⟩
    have h1 : List.count EvTag.turnStart [EvTag.agentStart] = 0 := by decide
    have h2 : List.count EvTag.turnStart [EvTag.agentEnd] = 0 := by decide
    omega
  · simp only [promptRun, runLoop]
    exact List.getLast?_concat _

/-- C2: the continuation decision computed by the code equals the reference
policy written from the spec clauses, on every loop state and assistant
message. -/
theorem C2_continuation_policy_equals_reference (st : LoopState)
    (message : AssistantMessage) :
    shouldContinueLoop st message = shouldContinueSpec st message := by
  simp only [shouldContinueLoop, shouldContinueSpec]
  by_cases h1 : 3 ≤ st.consecutiveErrors
  · simp [h1]
  · cases htc : message.toolCalls with
    | nil =>
      by_cases h3 : message.stopReason = some "length" <;>
        by_cases h4 : st.hasMadeProgress <;>
          simp [h1, htc, h3, h4]
    | cons a l => simp [h1, htc]

theorem runToolCall_toolCallId (tools : ToolMap) (tc : ToolCall) :
    (runToolCall tools tc).toolCallId = tc.id := by
  unfold runToolCall executeTool
  split
  · rfl
  · split
    · rfl
    · split <;> rfl

/-- C4 amended: in every turn the attempted tool calls are the first
max_tool_calls_per_turn entries of the assistant message's tool_calls list,
and each attempted call — whatever its outcome: success, invalid arguments,
unknown tool, or raised exception — produces exactly one ToolResultMessage
carrying that call's id, all appended to history right after the assistant
message; calls beyond the bound produce none. -/
theorem C4_tool_results_per_attempted_call (cfg : AgentConfig) (tools : ToolMap)
    (turn : Nat) (msgs : List Message) (st : LoopState) (out : StreamOutcome) :
    (runTurn cfg tools turn msgs st out).toolResults.map (fun r => r.toolCallId)
      = ((streamResponse cfg.model out).toolCalls.take cfg.maxToolCallsPerTurn).map
          (fun tc => tc.id) ∧
    (runTurn cfg tools turn msgs st out).messages
      = msgs ++ [Message.assistant (streamResponse cfg.model out)]
          ++ ((runTurn cfg tools turn msgs st out).toolResults.map Message.toolResult) := by
  constructor
  · show (((streamResponse cfg.model out).toolCalls.take cfg.maxToolCallsPerTurn).map
        (runToolCall tools)).map (fun r => r.toolCallId) = _
    rw [List.map_map]
    refine List.map_congr_left ?_
    intro tc _
    exact runToolCall_toolCallId tools tc
  · rfl

/-- C4 counterexample configuration: a per-turn tool-call budget of one. -/
def c4Config : AgentConfig := { model := "m", maxTurns := 10, maxToolCallsPerTurn := 1 }

/-- C4 counterexample tool map: no tools registered. -/
def c4Tools : ToolMap := fun _ => Option.none

/-- C4 counterexample stream: the model asks for two tool calls. -/
def c4Out : StreamOutcome :=
  .events [.toolCall (some ⟨"idA", "t", .pydict [("k", .pystr "v")]⟩),
           .toolCall (some ⟨"idB", "t", .pydict [("k", .pystr "v")]⟩)]

/-- C4 is refuted as stated: with max_tool_calls_per_turn = 1 and two tool
calls in the assistant message, only the first call produces a
ToolResultMessage; no result carrying the second call id idB is ever
appended during the turn. -/
theorem C4_counterexample :
    (streamResponse c4Config.model c4Out).toolCalls.map (fun tc => tc.id)
        = ["idA", "idB"] ∧
    (runTurn c4Config c4Tools 0 [] ⟨0, 0, 0, "", false⟩ c4Out).toolResults.map
        (fun r => r.toolCallId) = ["idA"] ∧
    "idB" ∉ (runTurn c4Config c4Tools 0 [] ⟨0, 0, 0, "", false⟩ c4Out).toolResults.map
        (fun r => r.toolCallId) := by
  refine ⟨rfl, rfl, by decide⟩

theorem countErrors_cons (r : ToolResultMessage) (rs : List ToolResultMessage) :
    countErrors (r :: rs) =
      if r.isError then countErrors rs + 1 else countErrors rs := by
  by_cases h : r.isError <;> simp [countErrors, List.filter_cons, h]

theorem countErrors_eq_length {rs : List ToolResultMessage}
    (h : ∀ r ∈ rs, r.isError = true) : countErrors rs = rs.length := by
  induction rs with
  | nil => rfl
  | cons r rs ih =>
    rw [countErrors_cons, if_pos (h r (List.mem_cons_self _ _))]
    simp [ih (fun x hx => h x (List.mem_cons_of_mem _ hx))]

theorem countErrors_lt_length {rs : List ToolResultMessage} {r0 : ToolResultMessage}
    (hmem : r0 ∈ rs) (h : r0.isError = false) : countErrors rs < rs.length := by
  induction rs with
  | nil => simp at hmem
  | cons r rs ih =>
    rcases List.mem_cons.mp hmem with h0 | h0
    · subst h0
      rw [countErrors_cons, if_neg (by simp [h])]
      have := List.length_filter_le (fun x => x.isError) rs
      simp only [countErrors]
      simp only [List.length_cons]
      omega
    · have hlt := ih h0
      rw [countErrors_cons]
      by_cases hr : r.isError <;> simp [hr, List.length_cons] <;> omega

theorem progressUpdate_consecutiveErrors (st : LoopState) (am : AssistantMessage) :
    (progressUpdate st am).consecutiveErrors = st.consecutiveErrors := by
  by_cases h : contentHasProgress am.content <;> simp [progressUpdate, h]

theorem turnStateUpdate_consecutiveErrors (cfg : AgentConfig) (tools : ToolMap)
    (st1 : LoopState) (am : AssistantMessage) :
    (turnStateUpdate cfg tools st1 am).consecutiveErrors =
      (if am.toolCalls.isEmpty then st1.consecutiveErrors
       else if countErrors ((am.toolCalls.take cfg.maxToolCallsPerTurn).map
                (runToolCall tools))
              = ((am.toolCalls.take cfg.maxToolCallsPerTurn).map
                (runToolCall tools)).length
              ∧ 0 < countErrors ((am.toolCalls.take cfg.maxToolCallsPerTurn).map
                (runToolCall tools))
       then st1.consecutiveErrors + 1 else 0) := by
  simp only [turnStateUpdate]
  by_cases hE : am.toolCalls.isEmpty
  · rw [if_pos hE, if_pos hE]
  · rw [if_neg hE, if_neg hE]
    by_cases hc : countErrors ((am.toolCalls.take cfg.maxToolCallsPerTurn).map
          (runToolCall tools))
        = ((am.toolCalls.take cfg.maxToolCallsPerTurn).map (runToolCall tools)).length
        ∧ 0 < countErrors ((am.toolCalls.take cfg.maxToolCallsPerTurn).map
          (runToolCall tools))
    · rw [if_pos hc, if_pos hc]
    · rw [if_neg hc, if_neg hc]

theorem runTurn_state_consecutiveErrors (cfg : AgentConfig) (tools : ToolMap)
    (turn : Nat) (msgs : List Message) (st : LoopState) (out : StreamOutcome) :
    (runTurn cfg tools turn msgs st out).state.consecutiveErrors =
      (if (streamResponse cfg.model out).toolCalls.isEmpty then st.consecutiveErrors
       else if countErrors ((runTurn cfg tools turn msgs st out).toolResults)
              = ((runTurn cfg tools turn msgs st out).toolResults).length
              ∧ 0 < countErrors ((runTurn cfg tools turn msgs st out).toolResults)
       then st.consecutiveErrors + 1 else 0) := by
  have h1 : (runTurn cfg tools turn msgs st out).state =
      turnStateUpdate cfg tools
        (progressUpdate { st with turn := turn } (streamResponse cfg.model out))
        (streamResponse cfg.model out) := rfl
  rw [h1, turnStateUpdate_consecutiveErrors, progressUpdate_consecutiveErrors]
  rfl

/-- C5 scenario configuration: defaults, so max_turns is 10. -/
def c5Config : AgentConfig := { model := "m" }

/-- C5 scenario tool map: one tool whose result always carries the error
flag. -/
def c5Tools : ToolMap :=
  fun name => if name = "t" then some (fun _ _ => .returns "boom" true) else Option.none

/-- C5 scenario oracle: the model asks for the erroring tool every turn. -/
def c5Oracle : Nat → List Message → StreamOutcome :=
  fun _ _ => .events [.toolCall (some ⟨"c1", "t", .pydict [("k", .pystr "v")]⟩)]

/-- C5: in every turn that attempted at least one tool call the
consecutive_errors counter is incremented when every attempted call produced
an error result and reset to zero when at least one succeeded; and in the
concrete run where every tool call errors each turn, the loop stops after
exactly 3 turns although max_turns is 10. -/
theorem C5_consecutive_errors_increment_reset :
    (∀ (cfg : AgentConfig) (tools : ToolMap) (turn : Nat) (msgs : List Message)
        (st : LoopState) (out : StreamOutcome),
      1 ≤ (runTurn cfg tools turn msgs st out).toolResults.length →
        ((∀ r ∈ (runTurn cfg tools turn msgs st out).toolResults, r.isError = true) →
          (runTurn cfg tools turn msgs st out).state.consecutiveErrors
            = st.consecutiveErrors + 1) ∧
        ((∃ r ∈ (runTurn cfg tools turn msgs st out).toolResults, r.isError = false) →
          (runTurn cfg tools turn msgs st out).state.consecutiveErrors = 0)) ∧
    (runLoop c5Config c5Tools c5Oracle []).trace.count EvTag.turnStart = 3 ∧
    3 < c5Config.maxTurns := by
  refine ⟨?_, rfl, by decide⟩
  intro cfg tools turn msgs st out hlen
  have hne : ((streamResponse cfg.model out).toolCalls.take
      cfg.maxToolCallsPerTurn).map (runToolCall tools) ≠ [] := by
    intro h0
    rw [show (runTurn cfg tools turn msgs st out).toolResults =
      ((streamResponse cfg.model out).toolCalls.take cfg.maxToolCallsPerTurn).map
        (runToolCall tools) from rfl, h0] at hlen
    simp at hlen
  have hempty : (streamResponse cfg.model out).toolCalls.isEmpty = false := by
    rcases h : (streamResponse cfg.model out).toolCalls with _ | ⟨a, l⟩
    · rw [h] at hne; simp at hne
    · rfl
  constructor
  · intro hall
    have hcnt : countErrors ((runTurn cfg tools turn msgs st out).toolResults)
        = ((runTurn cfg tools turn msgs st out).toolResults).length :=
      countErrors_eq_length hall
    have hpos : 0 < countErrors ((runTurn cfg tools turn msgs st out).toolResults) := by
      omega
    rw [runTurn_state_consecutiveErrors, if_neg (by rw [hempty]; simp),
      if_pos ⟨hcnt, hpos⟩]
  · rintro ⟨r0, hr0, herr⟩
    have hlt := countErrors_lt_length hr0 herr
    rw [runTurn_state_consecutiveErrors, if_neg (by rw [hempty]; simp),
      if_neg (by rintro ⟨h1, _⟩; exact absurd h1 (by omega))]

/-- Closed witness for C5 applying the general part at a concrete
all-erroring turn. -/
theorem C5_witness :
    1 ≤ (runTurn c5Config c5Tools 0 [] ⟨0, 0, 0, "", false⟩
        (c5Oracle 0 [])).toolResults.length ∧
    ((∀ r ∈ (runTurn c5Config c5Tools 0 [] ⟨0, 0, 0, "", false⟩
        (c5Oracle 0 [])).toolResults, r.isError = true) →
      (runTurn c5Config c5Tools 0 [] ⟨0, 0, 0, "", false⟩
        (c5Oracle 0 [])).state.consecutiveErrors
        = (⟨0, 0, 0, "", false⟩ : LoopState).consecutiveErrors + 1) :=
  ⟨by decide,
   (C5_consecutive_errors_increment_reset.1 c5Config c5Tools 0 [] ⟨0, 0, 0, "", false⟩
     (c5Oracle 0 []) (by decide)).1⟩

theorem progressUpdate_hasMadeProgress (st : LoopState) (am : AssistantMessage) :
    (progressUpdate st am).hasMadeProgress =
      (contentHasProgress am.content || st.hasMadeProgress) := by
  by_cases h : contentHasProgress am.content <;> simp [progressUpdate, h]

/-- C9 amended: a provider exception mid-turn substitutes the synthesized
AssistantMessage (single error text block, stop_reason error, no tool
calls); the normal continuation policy then stops the loop after that turn.
Unlike the claim's parenthetical, the progress flag DOES become set, because
the synthesized error text is non-blank and the progress check sees it. -/
theorem C9_stream_exception_stops_loop (e : String) (cfg : AgentConfig)
    (tools : ToolMap) (turn : Nat) (msgs : List Message) (st : LoopState) :
    streamResponse cfg.model (.raises e) =
      { content := [ContentBlock.text ("Error: " ++ e)], toolCalls := [],
        model := cfg.model, usage := Option.none, stopReason := some "error" } ∧
    (runTurn cfg tools turn msgs st (.raises e)).message
      = streamResponse cfg.model (.raises e) ∧
    (runTurn cfg tools turn msgs st (.raises e)).toolResults = [] ∧
    (runTurn cfg tools turn msgs st (.raises e)).state.hasMadeProgress
      = (contentHasProgress [ContentBlock.text ("Error: " ++ e)] || st.hasMadeProgress) ∧
    shouldContinueLoop (runTurn cfg tools turn msgs st (.raises e)).state
      (runTurn cfg tools turn msgs st (.raises e)).message = false := by
  refine ⟨rfl, rfl, ?_, ?_, ?_⟩
  · show (([] : List ToolCall).take cfg.maxToolCallsPerTurn).map (runToolCall tools) = []
    simp
  · have hstate : (runTurn cfg tools turn msgs st (.raises e)).state =
        progressUpdate { st with turn := turn } (streamResponse cfg.model (.raises e)) := rfl
    rw [hstate, progressUpdate_hasMadeProgress]
    rfl
  · have hmsg : (runTurn cfg tools turn msgs st (.raises e)).message =
        { content := [ContentBlock.text ("Error: " ++ e)], toolCalls := [],
          model := cfg.model, usage := Option.none, stopReason := some "error" } := rfl
    rw [hmsg]
    simp only [shouldContinueLoop]
    by_cases h1 : (runTurn cfg tools turn msgs st (.raises e)).state.consecutiveErrors ≥ 3
    · simp [h1]
    · simp [h1, show ¬ ((some "error" : Option String) = some "length") from by decide]

/-- C9 counterexample configuration. -/
def c9Config : AgentConfig := { model := "m", maxTurns := 5 }

/-- C9 counterexample tool map: no tools. -/
def c9Tools : ToolMap := fun _ => Option.none

/-- C9 counterexample oracle: the provider stream raises every turn. -/
def c9Oracle : Nat → List Message → StreamOutcome := fun _ _ => .raises "boom"

/-- C9 is refuted in its parenthetical: after a mid-turn provider exception
the progress flag IS set (the synthesized Error text is non-blank), even
though the loop does stop after that single turn as the claim says. -/
theorem C9_counterexample :
    (runLoop c9Config c9Tools c9Oracle []).state.hasMadeProgress = true ∧
    (runLoop c9Config c9Tools c9Oracle []).trace.count EvTag.turnStart = 1 :=
  ⟨by decide, by decide⟩

/-- C10: a tool call whose arguments are the empty mapping is rejected as
invalid before any lookup: the runtime never invokes any tool's execute (the
dispatch result does not depend on the tool map at all) and appends an
error-flagged ToolResultMessage naming the tool and citing invalid
arguments — so such a call never reaches any tool, including tools that
require no parameters. -/
theorem C10_empty_arguments_never_reach_tools (tools : ToolMap) (tc : ToolCall)
    (h : tc.arguments = PyVal.pydict []) :
    runToolCall tools tc =
      ⟨tc.id, tc.name,
       "Error: Tool \x27" ++ tc.name
         ++ "\x27 called with invalid arguments. Received: \x7b\x7d. Please check the tool\x27s required parameters and try again with valid arguments.",
       true⟩ ∧
    (∀ tools2 : ToolMap, runToolCall tools2 tc = runToolCall tools tc) ∧
    (runToolCall tools tc).isError = true := by
  obtain ⟨i, n, args⟩ := tc
  have h2 : args = PyVal.pydict [] := h
  subst h2
  refine ⟨?_, fun tools2 => rfl, rfl⟩
  show ToolResultMessage.mk i n (invalidArgumentsContent ⟨i, n, PyVal.pydict []⟩) true = _
  refine congrArg (fun c => ToolResultMessage.mk i n c true) ?_
  show "Error: Tool \x27" ++ n ++ "\x27 called with invalid arguments. Received: "
      ++ pyRepr (PyVal.pydict [])
      ++ ". Please check the tool\x27s required parameters and try again with valid arguments."
    = "Error: Tool \x27" ++ n
      ++ "\x27 called with invalid arguments. Received: \x7b\x7d. Please check the tool\x27s required parameters and try again with valid arguments."
  simp only [String.append_assoc]
  exact congrArg _ (congrArg _ (by rfl))

/-- Closed witness for C10 at a concrete empty-arguments call. -/
theorem C10_witness :
    (⟨"c1", "write", PyVal.pydict []⟩ : ToolCall).arguments = PyVal.pydict [] ∧
    (runToolCall (fun _ => Option.none) ⟨"c1", "write", PyVal.pydict []⟩).isError = true :=
  ⟨rfl, (C10_empty_arguments_never_reach_tools (fun _ => Option.none)
    ⟨"c1", "write", PyVal.pydict []⟩ rfl).2.2⟩

/-! ## Extension event dispatch
Embeds ExtensionRunner.emit from agenix/extensions/runner.py. The event is
mutated in place by handlers; a handler behavior is therefore a function
from the current event to an outcome: a normal return with the mutated
event, or a raised exception with the mutations made before the raise (the
except branch catches, logs and continues with the next handler without
checking the cancelled flag). The hasattr(event, cancelled) test is the
hasCancelled flag (CancellableEvent subclasses carry the attribute). -/

/-- The dispatched event: its type, whether it carries the cancelled
attribute, the flag itself, and its mutable payload. -/
structure ExtEvent where
  type : String
  hasCancelled : Bool
  cancelled : Bool
  data : List (String × String)

/-- One handler call either returns or raises; either way the event has been
mutated up to that point. -/
inductive HandlerOutcome where
  | returns (e : ExtEvent)
  | raises (e : ExtEvent)

/-- The behavior of one registered event handler. -/
def EventHandlerFn : Type := ExtEvent → HandlerOutcome

/-- LoadedExtension from agenix/extensions/types.py, restricted to what emit
reads: name, path and the per-event-type handler lists. -/
structure LoadedExtension where
  path : String
  name : String
  handlers : List (String × List EventHandlerFn)

/-- ext.handlers.get(event_type, []). -/
def getHandlers (ext : LoadedExtension) (eventType : String) : List EventHandlerFn :=
  (lookupA eventType ext.handlers).getD []

/-- The inner for-handler loop of ExtensionRunner.emit: handlers run
strictly sequentially in registration order; after a normal return the
cancelled flag is checked and the loop breaks; a raised exception is caught
and the loop continues with the next handler without checking the flag. -/
def runHandlers : List EventHandlerFn → ExtEvent → ExtEvent
  | [], e => e
  | h :: hs, e =>
    match h e with
    | .returns e2 => if e2.hasCancelled && e2.cancelled then e2 else runHandlers hs e2
    | .raises e2 => runHandlers hs e2

/-- The outer for-extension loop of ExtensionRunner.emit with the
between-extension cancellation check; event_type is read once before the
loop. -/
def emitAux (eventType : String) : List LoadedExtension → ExtEvent → ExtEvent
  | [], e => e
  | ext :: exts, e =>
    let e2 := runHandlers (getHandlers ext eventType) e
    if e2.hasCancelled && e2.cancelled then e2 else emitAux eventType exts e2

/-- ExtensionRunner.emit: dispatch the event to every extension in
registration order and return the (possibly mutated, possibly cancelled)
event. -/
def emit (exts : List LoadedExtension) (e : ExtEvent) : ExtEvent :=
  emitAux e.type exts e

/-- C8 amended: dispatch is strictly sequential in registration order; if a
handler returns normally having set cancelled on a cancellable event, none
of the remaining handlers of that extension and none of the handlers of
later extensions run, and the event with its accumulated mutations is
returned; a handler that raises is caught and dispatch continues with the
next handler of the same extension without a flag check (so a handler that
sets cancelled and then raises does not stop its sibling handlers — only
extensions after the current one are skipped, by the between-extension
check). -/
theorem C8_cancellation_stops_dispatch :
    (∀ (h : EventHandlerFn) (hs : List EventHandlerFn) (e e2 : ExtEvent),
      h e = .returns e2 → e2.hasCancelled = true → e2.cancelled = true →
        runHandlers (h :: hs) e = e2) ∧
    (∀ (h : EventHandlerFn) (hs : List EventHandlerFn) (e e2 : ExtEvent),
      h e = .returns e2 → (e2.hasCancelled && e2.cancelled) = false →
        runHandlers (h :: hs) e = runHandlers hs e2) ∧
    (∀ (h : EventHandlerFn) (hs : List EventHandlerFn) (e e2 : ExtEvent),
      h e = .raises e2 → runHandlers (h :: hs) e = runHandlers hs e2) ∧
    (∀ (eventType : String) (ext : LoadedExtension) (exts : List LoadedExtension)
        (e : ExtEvent),
      ((runHandlers (getHandlers ext eventType) e).hasCancelled &&
        (runHandlers (getHandlers ext eventType) e).cancelled) = true →
        emitAux eventType (ext :: exts) e = runHandlers (getHandlers ext eventType) e) ∧
    (∀ (eventType : String) (ext : LoadedExtension) (exts : List LoadedExtension)
        (e : ExtEvent),
      ((runHandlers (getHandlers ext eventType) e).hasCancelled &&
        (runHandlers (getHandlers ext eventType) e).cancelled) = false →
        emitAux eventType (ext :: exts) e
          = emitAux eventType exts (runHandlers (getHandlers ext eventType) e)) := by
  refine ⟨?_, ?_, ?_, ?_, ?_⟩
  · intro h hs e e2 hret hc1 hc2
    simp [runHandlers, hret, hc1, hc2]
  · intro h hs e e2 hret hc
    simp [runHandlers, hret, hc]
  · intro h hs e e2 hraise
    simp [runHandlers, hraise]
  · intro eventType ext exts e hc
    simp [emitAux, hc]
  · intro eventType ext exts e hc
    simp [emitAux, hc]

/-- Handler that sets cancelled and then raises. -/
def c8H1 : EventHandlerFn :=
  fun e => .raises { e with cancelled := true, data := e.data ++ [("h1", "ran")] }

/-- Handler that records that it ran. -/
def c8H2 : EventHandlerFn :=
  fun e => .returns { e with data := e.data ++ [("h2", "ran")] }

/-- Handler of a later extension that records that it ran. -/
def c8H3 : EventHandlerFn :=
  fun e => .returns { e with data := e.data ++ [("h3", "ran")] }

/-- Handler that sets cancelled and returns normally. -/
def c8H4 : EventHandlerFn :=
  fun e => .returns { e with cancelled := true, data := e.data ++ [("h4", "ran")] }

/-- First extension for the C8 counterexample: a cancelling-then-raising
handler followed by a sibling handler. -/
def c8Ext1 : LoadedExtension := ⟨"/ext1", "ext1", [("tool_call", [c8H1, c8H2])]⟩

/-- Second extension for the C8 counterexample. -/
def c8Ext2 : LoadedExtension := ⟨"/ext2", "ext2", [("tool_call", [c8H3])]⟩

/-- A cancellable tool_call event with empty payload. -/
def c8Event : ExtEvent := ⟨"tool_call", true, false, []⟩

/-- C8 is refuted as stated: handler 1 of extension 1 sets cancelled = true
(and then raises); handler 2 of the same extension still runs (its h2
marker appears in the returned payload), contradicting the claim that no
further handler of the same extension runs; the later extension is indeed
skipped and the mutated, cancelled event is returned. -/
theorem C8_counterexample :
    c8H1 c8Event = HandlerOutcome.raises ⟨"tool_call", true, true, [("h1", "ran")]⟩ ∧
    (emit [c8Ext1, c8Ext2] c8Event).data = [("h1", "ran"), ("h2", "ran")] ∧
    (emit [c8Ext1, c8Ext2] c8Event).cancelled = true :=
  ⟨rfl, rfl, rfl⟩

/-- Closed witness for the amended C8: a handler that cancels and returns
normally makes the remaining sibling handler not run. -/
theorem C8_witness :
    c8H4 c8Event = HandlerOutcome.returns ⟨"tool_call", true, true, [("h4", "ran")]⟩ ∧
    runHandlers [c8H4, c8H3] c8Event = ⟨"tool_call", true, true, [("h4", "ran")]⟩ :=
  ⟨rfl,
   C8_cancellation_stops_dispatch.1 c8H4 [c8H3] c8Event
     ⟨"tool_call", true, true, [("h4", "ran")]⟩ rfl rfl rfl⟩

end Agenix
